import Mathlib

set_option maxHeartbeats 1000000

/-!
Verification development for the MCP client (`client.py`): a shallow
embedding of the schema adapter (`clean_schema`,
`convert_mcp_tools_to_gemini`), the result normalizer
(`_extract_tool_result`), the tool invoker (`_execute_tool_call`) and the
agentic loop (`process_query`), together with theorems settling the
specification claims about them.

Python dicts are modelled as association lists with unique keys
(`List (String × Val)`); `dict.pop` is key filtering, `d[k] = v`
replaces the value at the first occurrence of `k` in place.
`json.loads` is an external library routine and is modelled as an
abstract total function `String → Option Val` (`none` covers a raised
`JSONDecodeError`).
-/

/-- Python `d.get(k)` on an association list: value of the first entry
whose key is `k`. -/
def lookupKey {α : Type} (k : String) : List (String × α) → Option α
  | [] => none
  | kv :: rest => if kv.1 = k then some kv.2 else lookupKey k rest

/-- Python `d[k] = v` when `k` is already present: replace the value at
the first occurrence of key `k`, keeping its position; no-op when the key
is absent. -/
def setKey {α : Type} (k : String) (v : α) : List (String × α) → List (String × α)
  | [] => []
  | kv :: rest => if kv.1 = k then (k, v) :: rest else kv :: setKey k v rest

/-- JSON-like Python values: the payloads flowing through the client
(parsed JSON, schema dicts, tool arguments and results). -/
inductive Val where
  | null : Val
  | bool (b : Bool) : Val
  | int (n : Int) : Val
  | str (s : String) : Val
  | list (xs : List Val) : Val
  | dict (kvs : List (String × Val)) : Val

theorem sizeOf_lookupKey {k : String} :
    ∀ {kvs : List (String × Val)} {v : Val}, lookupKey k kvs = some v → sizeOf v < sizeOf kvs := by
  intro kvs
  induction kvs with
  | nil => intro v h; simp [lookupKey] at h
  | cons kv rest ih =>
    intro v h
    simp only [lookupKey] at h
    split at h
    · obtain ⟨k0, v0⟩ := kv
      cases h
      simp only [Prod.mk.sizeOf_spec, List.cons.sizeOf_spec]
      omega
    · have := ih h
      simp only [List.cons.sizeOf_spec]
      omega

theorem sizeOf_filter_le (p : String × Val → Bool) (l : List (String × Val)) :
    sizeOf (l.filter p) ≤ sizeOf l := by
  induction l with
  | nil => simp
  | cons kv rest ih =>
    cases h : p kv
    · rw [List.filter_cons_of_neg (by simp [h])]
      simp only [List.cons.sizeOf_spec]
      omega
    · rw [List.filter_cons_of_pos (by simp [h])]
      simp only [List.cons.sizeOf_spec]
      omega

/-- Size bound used both for termination and for the strong induction in
the `clean_schema` proofs: a value sitting under a `properties` entry of
the title-filtered dict is smaller than the dict itself. -/
theorem sizeOf_props_lt {kvs props : List (String × Val)}
    (hl : lookupKey "properties" (kvs.filter fun kv => kv.1 != "title") = some (Val.dict props)) :
    sizeOf props < sizeOf (Val.dict kvs) := by
  have h1 := sizeOf_lookupKey hl
  have h2 := sizeOf_filter_le (fun kv => kv.1 != "title") kvs
  simp only [Val.dict.sizeOf_spec] at h1 ⊢
  omega

theorem sizeOf_mem_pair {l : List (String × Val)} {kv : String × Val} (h : kv ∈ l) :
    sizeOf kv.2 < sizeOf l := by
  have h1 := List.sizeOf_lt_of_mem h
  obtain ⟨k, v⟩ := kv
  simp only [Prod.mk.sizeOf_spec] at h1
  simp only []
  omega

/-- The branch test `"properties" in schema and isinstance(schema["properties"], dict)`
of `clean_schema`: the `properties` entry of the dict when it exists and is
itself a dict, `none` otherwise. -/
def propsOf (kvs : List (String × Val)) : Option (List (String × Val)) :=
  match lookupKey "properties" kvs with
  | some (.dict props) => some props
  | _ => none

theorem propsOf_some {kvs props : List (String × Val)} (h : propsOf kvs = some props) :
    lookupKey "properties" kvs = some (Val.dict props) := by
  unfold propsOf at h
  split at h
  · cases h; assumption
  · cases h

theorem propsOf_of_lookup_dict {kvs d : List (String × Val)}
    (h : lookupKey "properties" kvs = some (Val.dict d)) : propsOf kvs = some d := by
  unfold propsOf
  rw [h]

mutual

/-- Model of `clean_schema` from `client.py`: remove the `title` key of a dict,
then, when the (post-removal) dict has a `properties` entry that is
itself a dict, replace each value of that `properties` dict by its
cleaned form.  Non-dict values are returned unchanged. -/
def cleanSchema : Val → Val
  | .dict kvs =>
    match hp : propsOf (kvs.filter fun kv => kv.1 != "title") with
    | some props =>
      .dict (setKey "properties" (.dict (cleanSchemaProps props))
        (kvs.filter fun kv => kv.1 != "title"))
    | none => .dict (kvs.filter fun kv => kv.1 != "title")
  | .null => .null
  | .bool b => .bool b
  | .int n => .int n
  | .str s => .str s
  | .list xs => .list xs
termination_by v => sizeOf v
decreasing_by
  exact sizeOf_props_lt (propsOf_some (by assumption))

/-- The `for key in schema["properties"]` loop of `clean_schema`:
clean every value of the `properties` dict. -/
def cleanSchemaProps : List (String × Val) → List (String × Val)
  | [] => []
  | kv :: rest => (kv.1, cleanSchema kv.2) :: cleanSchemaProps rest
termination_by l => sizeOf l
decreasing_by
  · exact sizeOf_mem_pair (List.mem_cons_self _ _)
  · simp only [List.cons.sizeOf_spec]; omega

end

example : cleanSchema (.dict [("title", .str "T"), ("type", .str "object")])
    = .dict [("type", .str "object")] := by
  simp [cleanSchema, cleanSchemaProps, propsOf, lookupKey, setKey]

example : cleanSchema (.dict [("title", .str "T"),
      ("properties", .dict [("a", .dict [("title", .str "A"), ("type", .str "string")])])])
    = .dict [("properties", .dict [("a", .dict [("type", .str "string")])])] := by
  simp [cleanSchema, cleanSchemaProps, propsOf, lookupKey, setKey]

example : cleanSchema (.dict [("type", .str "array"),
      ("items", .dict [("title", .str "I"), ("type", .str "string")])])
    = .dict [("type", .str "array"),
      ("items", .dict [("title", .str "I"), ("type", .str "string")])] := by
  simp [cleanSchema, cleanSchemaProps, propsOf, lookupKey, setKey]

theorem sizeOf_props_lt2 {kvs props : List (String × Val)}
    (hl : lookupKey "properties" kvs = some (Val.dict props)) :
    sizeOf props < sizeOf (Val.dict kvs) := by
  have h1 := sizeOf_lookupKey hl
  simp only [Val.dict.sizeOf_spec] at h1 ⊢
  omega

mutual

/-- Reference transformation for stating what `clean_schema` does NOT do:
remove every `title` key at every nesting depth (dict values and list
elements alike), leaving all other keys untouched. -/
def eraseTitlesDeep : Val → Val
  | .list xs => .list (eraseElems xs)
  | .dict kvs => .dict (erasePairs (kvs.filter fun kv => kv.1 != "title"))
  | .null => .null
  | .bool b => .bool b
  | .int n => .int n
  | .str s => .str s
termination_by v => sizeOf v
decreasing_by
  · simp only [Val.list.sizeOf_spec]; omega
  · have := sizeOf_filter_le (fun kv => kv.1 != "title") kvs
    simp only [Val.dict.sizeOf_spec]; omega

/-- Deep title removal on the elements of a list value. -/
def eraseElems : List Val → List Val
  | [] => []
  | x :: rest => eraseTitlesDeep x :: eraseElems rest
termination_by l => sizeOf l
decreasing_by
  · simp only [List.cons.sizeOf_spec]; omega
  · simp only [List.cons.sizeOf_spec]; omega

/-- Deep title removal on the values of a dict. -/
def erasePairs : List (String × Val) → List (String × Val)
  | [] => []
  | kv :: rest => (kv.1, eraseTitlesDeep kv.2) :: erasePairs rest
termination_by l => sizeOf l
decreasing_by
  · exact sizeOf_mem_pair (List.mem_cons_self _ _)
  · simp only [List.cons.sizeOf_spec]; omega

end

mutual

/-- The positions `clean_schema` is guaranteed to clean: a dict has no
`title` key at its top level and, when it has a dict-valued `properties`
entry, every value of that entry recursively satisfies the same check. -/
def noTitleOnSpine : Val → Bool
  | .dict kvs =>
    (kvs.all fun kv => kv.1 != "title") &&
    (match hp : propsOf kvs with
     | some props => spineAll props
     | none => true)
  | _ => true
termination_by v => sizeOf v
decreasing_by
  exact sizeOf_props_lt2 (propsOf_some (by assumption))

/-- Conjunction of `noTitleOnSpine` over the values of a `properties` dict. -/
def spineAll : List (String × Val) → Bool
  | [] => true
  | kv :: rest => noTitleOnSpine kv.2 && spineAll rest
termination_by l => sizeOf l
decreasing_by
  · exact sizeOf_mem_pair (List.mem_cons_self _ _)
  · simp only [List.cons.sizeOf_spec]; omega

end

mutual

/-- Deep detector: does a `title` key occur anywhere in the value
(top level of a dict, nested dict values, or inside list elements)? -/
def hasTitleDeep : Val → Bool
  | .list xs => hasTitleElems xs
  | .dict kvs => (kvs.any fun kv => kv.1 == "title") || hasTitlePairs kvs
  | _ => false
termination_by v => sizeOf v
decreasing_by
  · simp only [Val.list.sizeOf_spec]; omega
  · simp only [Val.dict.sizeOf_spec]; omega

/-- Disjunction of `hasTitleDeep` over list elements. -/
def hasTitleElems : List Val → Bool
  | [] => false
  | x :: rest => hasTitleDeep x || hasTitleElems rest
termination_by l => sizeOf l
decreasing_by
  · simp only [List.cons.sizeOf_spec]; omega
  · simp only [List.cons.sizeOf_spec]; omega

/-- Disjunction of `hasTitleDeep` over dict values. -/
def hasTitlePairs : List (String × Val) → Bool
  | [] => false
  | kv :: rest => hasTitleDeep kv.2 || hasTitlePairs rest
termination_by l => sizeOf l
decreasing_by
  · exact sizeOf_mem_pair (List.mem_cons_self _ _)
  · simp only [List.cons.sizeOf_spec]; omega

end

/-- MCP tool descriptor as consumed by `convert_mcp_tools_to_gemini`:
`name`, `description` and `inputSchema`. -/
structure MCPTool where
  name : String
  description : String
  inputSchema : Val

/-- Gemini `FunctionDeclaration`: name, description and the cleaned
parameter schema. -/
structure FunctionDecl where
  name : String
  description : String
  parameters : Val

/-- Gemini `Tool` wrapper holding one function declaration list. -/
structure GeminiTool where
  functionDeclarations : List FunctionDecl

/-- Model of `convert_mcp_tools_to_gemini` from `client.py`: for each tool, clean
its input schema (the shallow `.copy()` is identity on the value level)
and wrap it with the tool's name and description into a single-element
`Tool`. -/
def convertMcpToolsToGemini (tools : List MCPTool) : List GeminiTool :=
  tools.map fun t => ⟨[⟨t.name, t.description, cleanSchema t.inputSchema⟩]⟩

theorem cleanSchemaProps_eq_map (l : List (String × Val)) :
    cleanSchemaProps l = l.map fun kv => (kv.1, cleanSchema kv.2) := by
  induction l with
  | nil => simp [cleanSchemaProps]
  | cons kv rest ih => simp [cleanSchemaProps, ih]

theorem erasePairs_eq_map (l : List (String × Val)) :
    erasePairs l = l.map fun kv => (kv.1, eraseTitlesDeep kv.2) := by
  induction l with
  | nil => simp [erasePairs]
  | cons kv rest ih => simp [erasePairs, ih]

theorem eraseElems_eq_map (l : List Val) :
    eraseElems l = l.map eraseTitlesDeep := by
  induction l with
  | nil => simp [eraseElems]
  | cons x rest ih => simp [eraseElems, ih]

theorem spineAll_eq_all (l : List (String × Val)) :
    spineAll l = l.all fun kv => noTitleOnSpine kv.2 := by
  induction l with
  | nil => simp [spineAll]
  | cons kv rest ih => simp [spineAll, ih]

theorem filter_keys_idem {α : Type} (p : String → Bool) (l : List (String × α)) :
    (l.filter fun kv => p kv.1).filter (fun kv => p kv.1) = l.filter fun kv => p kv.1 := by
  induction l with
  | nil => simp
  | cons kv rest ih =>
    cases h : p kv.1
    · simp [List.filter_cons, h, ih]
    · simp [List.filter_cons, h, ih]

theorem all_keys_setKey {α : Type} (p : String → Bool) (k : String) (v : α)
    (l : List (String × α)) (hk : p k = true) :
    ((setKey k v l).all fun kv => p kv.1) = (l.all fun kv => p kv.1) := by
  induction l with
  | nil => simp [setKey]
  | cons kv rest ih =>
    by_cases h : kv.1 = k
    · simp [setKey, h, hk]
    · simp [setKey, h, ih]

theorem lookupKey_setKey_self {α : Type} {k : String} {w : α} (v : α)
    {l : List (String × α)} (hl : lookupKey k l = some w) :
    lookupKey k (setKey k v l) = some v := by
  induction l with
  | nil => simp [lookupKey] at hl
  | cons kv rest ih =>
    by_cases h : kv.1 = k
    · simp [setKey, h, lookupKey]
    · simp only [lookupKey, h, if_false] at hl
      simp [setKey, h, lookupKey, ih hl]

theorem setKey_eq_of_lookup {α : Type} {k : String} {v : α} :
    ∀ {l : List (String × α)}, lookupKey k l = some v → setKey k v l = l := by
  intro l
  induction l with
  | nil => intro h; simp [lookupKey] at h
  | cons kv rest ih =>
    intro h
    by_cases hk : kv.1 = k
    · simp only [lookupKey, hk, if_true] at h
      cases h
      obtain ⟨k0, v0⟩ := kv
      simp at hk
      simp [setKey, hk]
    · simp only [lookupKey, hk, if_false] at h
      simp [setKey, hk, ih h]

theorem lookupKey_mapVals {α β : Type} (f : α → β) (k : String) :
    ∀ (l : List (String × α)),
      lookupKey k (l.map fun kv => (kv.1, f kv.2)) = (lookupKey k l).map f := by
  intro l
  induction l with
  | nil => simp [lookupKey]
  | cons kv rest ih =>
    by_cases h : kv.1 = k
    · simp [lookupKey, h]
    · simp [lookupKey, h, ih]

theorem filter_keys_mapVals {α β : Type} (f : α → β) (p : String → Bool)
    (l : List (String × α)) :
    (l.map fun kv => (kv.1, f kv.2)).filter (fun kv => p kv.1)
      = (l.filter fun kv => p kv.1).map fun kv => (kv.1, f kv.2) := by
  induction l with
  | nil => simp
  | cons kv rest ih =>
    cases h : p kv.1
    · simp [List.filter_cons, h, ih]
    · simp [List.filter_cons, h, ih]

theorem mapVals_setKey {α β : Type} (f : α → β) (k : String) (v : α)
    (l : List (String × α)) :
    (setKey k v l).map (fun kv => (kv.1, f kv.2))
      = setKey k (f v) (l.map fun kv => (kv.1, f kv.2)) := by
  induction l with
  | nil => simp [setKey]
  | cons kv rest ih =>
    by_cases h : kv.1 = k
    · simp [setKey, h]
    · simp [setKey, h, ih]

theorem filter_keys_setKey {α : Type} (p : String → Bool) (k : String) (v : α)
    (l : List (String × α)) (hk : p k = true) :
    (setKey k v l).filter (fun kv => p kv.1) = setKey k v (l.filter fun kv => p kv.1) := by
  induction l with
  | nil => simp [setKey]
  | cons kv rest ih =>
    by_cases h : kv.1 = k
    · subst h
      rw [setKey, if_pos rfl, List.filter_cons_of_pos (by simp [hk]),
        List.filter_cons_of_pos (by simp [hk]), setKey, if_pos rfl]
    · cases hp : p kv.1
      · rw [setKey, if_neg h, List.filter_cons_of_neg (by simp [hp]),
          List.filter_cons_of_neg (by simp [hp]), ih]
      · rw [setKey, if_neg h, List.filter_cons_of_pos (by simp [hp]),
          List.filter_cons_of_pos (by simp [hp]), setKey, if_neg h, ih]

theorem cleanSchema_dict (kvs : List (String × Val)) :
    cleanSchema (Val.dict kvs) =
      (match propsOf (kvs.filter fun kv => kv.1 != "title") with
       | some props =>
         Val.dict (setKey "properties" (Val.dict (cleanSchemaProps props))
           (kvs.filter fun kv => kv.1 != "title"))
       | none => Val.dict (kvs.filter fun kv => kv.1 != "title")) := by
  simp only [cleanSchema]
  split
  · rename_i props heq
    rw [heq]
  · rename_i heq
    rw [heq]

theorem eraseTitlesDeep_dict (kvs : List (String × Val)) :
    eraseTitlesDeep (Val.dict kvs)
      = Val.dict (erasePairs (kvs.filter fun kv => kv.1 != "title")) := by
  simp only [eraseTitlesDeep]

theorem noTitleOnSpine_dict (kvs : List (String × Val)) :
    noTitleOnSpine (Val.dict kvs)
      = ((kvs.all fun kv => kv.1 != "title") &&
         (match propsOf kvs with
          | some props => spineAll props
          | none => true)) := by
  simp only [noTitleOnSpine]
  congr 1
  split
  · rename_i props heq
    rw [heq]
  · rename_i heq
    rw [heq]

theorem all_keys_filter_self {α : Type} (p : String → Bool) (l : List (String × α)) :
    ((l.filter fun kv => p kv.1).all fun kv => p kv.1) = true := by
  simp only [List.all_eq_true]
  intro kv hkv
  exact (List.mem_filter.1 hkv).2

theorem filterTitle_idem (l : List (String × Val)) :
    (l.filter fun kv => kv.1 != "title").filter (fun kv => kv.1 != "title")
      = l.filter fun kv => kv.1 != "title" :=
  filter_keys_idem (fun k => k != "title") l

theorem allTitle_filter_self (l : List (String × Val)) :
    ((l.filter fun kv => kv.1 != "title").all fun kv => kv.1 != "title") = true :=
  all_keys_filter_self (fun k => k != "title") l

theorem allTitle_setKey (v : Val) (l : List (String × Val)) :
    ((setKey "properties" v l).all fun kv => kv.1 != "title")
      = (l.all fun kv => kv.1 != "title") :=
  all_keys_setKey (fun k => k != "title") "properties" v l (by decide)

theorem filterTitle_setKey (v : Val) (l : List (String × Val)) :
    (setKey "properties" v l).filter (fun kv => kv.1 != "title")
      = setKey "properties" v (l.filter fun kv => kv.1 != "title") :=
  filter_keys_setKey (fun k => k != "title") "properties" v l (by decide)

theorem filterTitle_mapVals (f : Val → Val) (l : List (String × Val)) :
    ((l.map fun kv => (kv.1, f kv.2)).filter fun kv => kv.1 != "title")
      = (l.filter fun kv => kv.1 != "title").map fun kv => (kv.1, f kv.2) :=
  filter_keys_mapVals f (fun k => k != "title") l

/-- Main characterization of `clean_schema`: it leaves no `title` key
anywhere on the `properties` spine, and apart from removing `title` keys
it changes nothing (deep title erasure of input and output agree). -/
theorem cleanSchema_spine_erase (v : Val) :
    noTitleOnSpine (cleanSchema v) = true
      ∧ eraseTitlesDeep (cleanSchema v) = eraseTitlesDeep v := by
  suffices H : ∀ (n : Nat) (v : Val), sizeOf v ≤ n →
      noTitleOnSpine (cleanSchema v) = true
        ∧ eraseTitlesDeep (cleanSchema v) = eraseTitlesDeep v from H (sizeOf v) v le_rfl
  intro n
  induction n using Nat.strong_induction_on with
  | _ n ih =>
    intro v hv
    cases v with
    | null => exact ⟨by simp [cleanSchema, noTitleOnSpine], by simp [cleanSchema]⟩
    | bool b => exact ⟨by simp [cleanSchema, noTitleOnSpine], by simp [cleanSchema]⟩
    | int m => exact ⟨by simp [cleanSchema, noTitleOnSpine], by simp [cleanSchema]⟩
    | str s => exact ⟨by simp [cleanSchema, noTitleOnSpine], by simp [cleanSchema]⟩
    | list xs => exact ⟨by simp [cleanSchema, noTitleOnSpine], by simp [cleanSchema]⟩
    | dict kvs =>
      cases hp : propsOf (kvs.filter fun kv => kv.1 != "title") with
      | none =>
        have hc : cleanSchema (Val.dict kvs)
            = Val.dict (kvs.filter fun kv => kv.1 != "title") := by
          rw [cleanSchema_dict, hp]
        constructor
        · rw [hc, noTitleOnSpine_dict, hp]
          simp [allTitle_filter_self]
        · rw [hc, eraseTitlesDeep_dict, eraseTitlesDeep_dict, filterTitle_idem]
      | some props =>
        have hlook : lookupKey "properties" (kvs.filter fun kv => kv.1 != "title")
            = some (Val.dict props) := propsOf_some hp
        have hc : cleanSchema (Val.dict kvs)
            = Val.dict (setKey "properties" (Val.dict (cleanSchemaProps props))
                (kvs.filter fun kv => kv.1 != "title")) := by
          rw [cleanSchema_dict, hp]
        have hsz : sizeOf props < sizeOf (Val.dict kvs) := sizeOf_props_lt hlook
        have hmem : ∀ kv ∈ props, noTitleOnSpine (cleanSchema kv.2) = true
            ∧ eraseTitlesDeep (cleanSchema kv.2) = eraseTitlesDeep kv.2 := by
          intro kv hkv
          have h1 : sizeOf kv.2 < sizeOf props := sizeOf_mem_pair hkv
          have h2 : sizeOf (Val.dict kvs) ≤ n := hv
          exact ih (sizeOf kv.2) (by omega) kv.2 le_rfl
        constructor
        · rw [hc, noTitleOnSpine_dict]
          have hk1 : ((setKey "properties" (Val.dict (cleanSchemaProps props))
              (kvs.filter fun kv => kv.1 != "title")).all fun kv => kv.1 != "title") = true := by
            rw [allTitle_setKey]
            exact allTitle_filter_self kvs
          have hk2 : propsOf (setKey "properties" (Val.dict (cleanSchemaProps props))
              (kvs.filter fun kv => kv.1 != "title")) = some (cleanSchemaProps props) :=
            propsOf_of_lookup_dict (lookupKey_setKey_self _ hlook)
          rw [hk1, hk2]
          simp only [Bool.true_and]
          rw [spineAll_eq_all, cleanSchemaProps_eq_map, List.all_map]
          simp only [List.all_eq_true, Function.comp]
          intro kv hkv
          exact (hmem kv hkv).1
        · rw [hc, eraseTitlesDeep_dict, eraseTitlesDeep_dict, erasePairs_eq_map,
            erasePairs_eq_map, filterTitle_setKey, filterTitle_idem, mapVals_setKey]
          have hCD : eraseTitlesDeep (Val.dict (cleanSchemaProps props))
              = eraseTitlesDeep (Val.dict props) := by
            rw [eraseTitlesDeep_dict, eraseTitlesDeep_dict, erasePairs_eq_map,
              erasePairs_eq_map, cleanSchemaProps_eq_map, filterTitle_mapVals, List.map_map]
            congr 1
            apply List.map_congr_left
            intro kv hkv
            have he := (hmem kv (List.mem_filter.1 hkv).1).2
            simp [Function.comp, he]
          rw [hCD]
          congr 1
          apply setKey_eq_of_lookup
          rw [lookupKey_mapVals, hlook]
          simp

/-- Python runtime values for the in-place mutation model of
`clean_schema`: a dict is a reference (heap address) to a mutable
association list; every non-dict value is opaque (`prim`). -/
inductive PVal where
  | prim (s : String)
  | dict (a : Nat)
deriving DecidableEq

/-- One mutable dict object. -/
abbrev HDict := List (String × PVal)

/-- The heap: dict objects indexed by address. -/
abbrev Heap := List HDict

/-- Dereference an address (out-of-range reads give the empty dict). -/
def getDict : Heap → Nat → HDict
  | [], _ => []
  | d :: _, 0 => d
  | _ :: rest, n + 1 => getDict rest n

/-- Write a dict object at an address (out-of-range writes are dropped). -/
def setDict : Heap → Nat → HDict → Heap
  | [], _, _ => []
  | _ :: rest, 0, d => d :: rest
  | x :: rest, n + 1, d => x :: setDict rest n d

mutual

/-- In-place `clean_schema` as it actually executes on the Python heap: mutates
the dict behind the reference in place (pops `title`, then walks the
`properties` entries), returning the updated heap.  `fuel` bounds the
recursion depth (Python values are acyclic, so any fuel above the
nesting depth gives the real behavior). -/
def cleanSchemaHeap : Nat → Heap → PVal → Heap
  | 0, h, _ => h
  | _ + 1, h, .prim _ => h
  | fuel + 1, h, .dict b =>
    let d1 := (getDict h b).filter fun kv => kv.1 != "title"
    let h1 := setDict h b d1
    match lookupKey "properties" d1 with
    | some (.dict pa) => cleanPropsHeap fuel pa (getDict h1 pa) h1
    | _ => h1
termination_by fuel _ _ => (fuel, 0)

/-- The `for key in schema["properties"]` loop on the heap: for each key
of the snapshot, clean the current value behind it and store it back. -/
def cleanPropsHeap : Nat → Nat → List (String × PVal) → Heap → Heap
  | _, _, [], h => h
  | fuel, pa, kv :: rest, h =>
    let v := (lookupKey kv.1 (getDict h pa)).getD (.prim "")
    let h2 := cleanSchemaHeap fuel h v
    let h3 := setDict h2 pa (setKey kv.1 v (getDict h2 pa))
    cleanPropsHeap fuel pa rest h3
termination_by fuel _ l _ => (fuel, l.length + 1)

end

/-- The per-tool schema conversion as executed:
`clean_schema(tool.inputSchema.copy())` — allocate a shallow copy of the
dict at `a` (sharing all nested references) and clean the copy in place.
Returns the updated heap and the copy's address. -/
def convertSchemaH (fuel : Nat) (h : Heap) (a : Nat) : Heap × Nat :=
  (cleanSchemaHeap fuel (h ++ [getDict h a]) (.dict h.length), h.length)

/-- No reference to address `a` occurs anywhere in the heap. -/
def refNotInB (a : Nat) (h : Heap) : Bool :=
  h.all fun d => d.all fun kv => kv.2 != PVal.dict a

theorem refNotInB_iff {a : Nat} {h : Heap} :
    refNotInB a h = true ↔ ∀ d ∈ h, ∀ kv ∈ d, kv.2 ≠ PVal.dict a := by
  simp [refNotInB, List.all_eq_true]

theorem getDict_setDict_ne {a b : Nat} (hne : a ≠ b) :
    ∀ (h : Heap) (d : HDict), getDict (setDict h b d) a = getDict h a := by
  intro h
  induction h generalizing a b with
  | nil => intro d; simp [setDict]
  | cons x rest ih =>
    intro d
    cases b with
    | zero =>
      cases a with
      | zero => exact absurd rfl hne
      | succ a0 => simp [setDict, getDict]
    | succ b0 =>
      cases a with
      | zero => simp [setDict, getDict]
      | succ a0 =>
        simp only [setDict, getDict]
        exact ih (show a0 ≠ b0 by omega) d

theorem mem_setDict {x : HDict} {h : Heap} {b : Nat} {d : HDict} :
    x ∈ setDict h b d → x ∈ h ∨ x = d := by
  induction h generalizing b with
  | nil => intro hx; simp [setDict] at hx
  | cons y rest ih =>
    intro hx
    cases b with
    | zero =>
      simp only [setDict, List.mem_cons] at hx
      rcases hx with h1 | h2
      · right; exact h1
      · left; simp [h2]
    | succ b0 =>
      simp only [setDict, List.mem_cons] at hx
      rcases hx with h1 | h2
      · left; simp [h1]
      · rcases ih h2 with h3 | h4
        · left; simp [h3]
        · right; exact h4

theorem getDict_mem_or_nil (h : Heap) (a : Nat) : getDict h a ∈ h ∨ getDict h a = [] := by
  induction h generalizing a with
  | nil => right; simp [getDict]
  | cons x rest ih =>
    cases a with
    | zero => left; simp [getDict]
    | succ a0 =>
      rcases ih a0 with h1 | h2
      · left; simp [getDict, h1]
      · right; simp [getDict, h2]

theorem lookupKey_mem {α : Type} {k : String} {v : α} :
    ∀ {l : List (String × α)}, lookupKey k l = some v → (k, v) ∈ l := by
  intro l
  induction l with
  | nil => intro h; simp [lookupKey] at h
  | cons kv rest ih =>
    intro h
    simp only [lookupKey] at h
    split at h
    · cases h
      rename_i hk
      obtain ⟨k0, v0⟩ := kv
      simp at hk
      simp [hk]
    · simp [ih h]

theorem setKey_mem {α : Type} {kv' : String × α} {k : String} {v : α} :
    ∀ {l : List (String × α)}, kv' ∈ setKey k v l → kv' ∈ l ∨ kv' = (k, v) := by
  intro l
  induction l with
  | nil => intro h; simp [setKey] at h
  | cons kv rest ih =>
    intro h
    simp only [setKey] at h
    split at h
    · simp only [List.mem_cons] at h
      rcases h with h1 | h2
      · right; exact h1
      · left; simp [h2]
    · simp only [List.mem_cons] at h
      rcases h with h1 | h2
      · left; simp [h1]
      · rcases ih h2 with h3 | h4
        · left; simp [h3]
        · right; exact h4

theorem refNotInB_setDict {a : Nat} {h : Heap} {b : Nat} {d : HDict}
    (hh : refNotInB a h = true) (hd : ∀ kv ∈ d, kv.2 ≠ PVal.dict a) :
    refNotInB a (setDict h b d) = true := by
  rw [refNotInB_iff]
  intro d' hd' kv hkv
  rcases mem_setDict hd' with h1 | h2
  · exact (refNotInB_iff.1 hh) d' h1 kv hkv
  · exact hd kv (h2 ▸ hkv)

theorem refNotInB_getDict_val {a : Nat} {h : Heap} {b : Nat}
    (hh : refNotInB a h = true) : ∀ kv ∈ getDict h b, kv.2 ≠ PVal.dict a := by
  intro kv hkv
  rcases getDict_mem_or_nil h b with h1 | h2
  · exact (refNotInB_iff.1 hh) _ h1 kv hkv
  · rw [h2] at hkv; simp at hkv

theorem getDict_append_lt {a : Nat} {h : Heap} (ha : a < h.length) (d : HDict) :
    getDict (h ++ [d]) a = getDict h a := by
  induction h generalizing a with
  | nil => simp at ha
  | cons x rest ih =>
    cases a with
    | zero => simp [getDict]
    | succ a0 =>
      simp only [List.cons_append, getDict]
      exact ih (by simpa using ha)

theorem cleanPropsHeap_pres (fuel : Nat)
    (hP : ∀ (h : Heap) (v : PVal) (a : Nat), refNotInB a h = true → v ≠ PVal.dict a →
      getDict (cleanSchemaHeap fuel h v) a = getDict h a
        ∧ refNotInB a (cleanSchemaHeap fuel h v) = true) :
    ∀ (l : List (String × PVal)) (pa : Nat) (h : Heap) (a : Nat),
      refNotInB a h = true → pa ≠ a →
      getDict (cleanPropsHeap fuel pa l h) a = getDict h a
        ∧ refNotInB a (cleanPropsHeap fuel pa l h) = true := by
  intro l
  induction l with
  | nil =>
    intro pa h a hre hpa
    simp [cleanPropsHeap, hre]
  | cons kv rest ih =>
    intro pa h a hre hpa
    simp only [cleanPropsHeap]
    have hv : ((lookupKey kv.1 (getDict h pa)).getD (PVal.prim "")) ≠ PVal.dict a := by
      cases hl : lookupKey kv.1 (getDict h pa) with
      | none => simp
      | some w =>
        simp only [Option.getD_some]
        exact refNotInB_getDict_val hre (kv.1, w) (lookupKey_mem hl)
    obtain ⟨e1, e2⟩ := hP h ((lookupKey kv.1 (getDict h pa)).getD (PVal.prim "")) a hre hv
    have h3in : ∀ kv' ∈ setKey kv.1 ((lookupKey kv.1 (getDict h pa)).getD (PVal.prim ""))
        (getDict (cleanSchemaHeap fuel h ((lookupKey kv.1 (getDict h pa)).getD (PVal.prim ""))) pa),
        kv'.2 ≠ PVal.dict a := by
      intro kv' hkv'
      rcases setKey_mem hkv' with h1 | h2
      · exact refNotInB_getDict_val e2 kv' h1
      · rw [h2]
        exact hv
    have hre3 := @refNotInB_setDict a _ pa _ e2 h3in
    have hget3 : getDict (setDict
        (cleanSchemaHeap fuel h ((lookupKey kv.1 (getDict h pa)).getD (PVal.prim ""))) pa
        (setKey kv.1 ((lookupKey kv.1 (getDict h pa)).getD (PVal.prim ""))
          (getDict (cleanSchemaHeap fuel h ((lookupKey kv.1 (getDict h pa)).getD (PVal.prim ""))) pa))) a
        = getDict h a := by
      rw [getDict_setDict_ne (Ne.symm hpa), e1]
    obtain ⟨f1, f2⟩ := ih pa _ a hre3 hpa
    constructor
    · rw [f1, hget3]
    · exact f2

theorem cleanSchemaHeap_pres : ∀ (fuel : Nat) (h : Heap) (v : PVal) (a : Nat),
    refNotInB a h = true → v ≠ PVal.dict a →
    getDict (cleanSchemaHeap fuel h v) a = getDict h a
      ∧ refNotInB a (cleanSchemaHeap fuel h v) = true := by
  intro fuel
  induction fuel with
  | zero =>
    intro h v a hre hv
    simp [cleanSchemaHeap, hre]
  | succ fuel ih =>
    intro h v a hre hv
    cases v with
    | prim s => simp [cleanSchemaHeap, hre]
    | dict b =>
      have hb : b ≠ a := fun hq => hv (by rw [hq])
      simp only [cleanSchemaHeap]
      have hd1 : ∀ kv ∈ (getDict h b).filter fun kv => kv.1 != "title",
          kv.2 ≠ PVal.dict a := by
        intro kv hkv
        exact refNotInB_getDict_val hre kv (List.mem_filter.1 hkv).1
      have hre1 : refNotInB a (setDict h b
          ((getDict h b).filter fun kv => kv.1 != "title")) = true :=
        refNotInB_setDict hre hd1
      have hget1 : getDict (setDict h b
          ((getDict h b).filter fun kv => kv.1 != "title")) a = getDict h a :=
        getDict_setDict_ne (Ne.symm hb) h _
      cases hl : lookupKey "properties" ((getDict h b).filter fun kv => kv.1 != "title") with
      | none =>
        simp only [hl]
        exact ⟨hget1, hre1⟩
      | some w =>
        cases w with
        | prim s =>
          simp only [hl]
          exact ⟨hget1, hre1⟩
        | dict pa =>
          simp only [hl]
          have hpa : pa ≠ a := by
            have hm := hd1 _ (lookupKey_mem hl)
            intro hq
            exact hm (by rw [hq])
          obtain ⟨f1, f2⟩ := cleanPropsHeap_pres fuel ih _ pa _ a hre1 hpa
          refine ⟨?_, f2⟩
          rw [f1, hget1]

/-- Shallow-copy purity, general form: the dict OBJECT at the root
address is itself never written by the conversion (provided nothing in
the heap references the root).  Nested objects shared with the copy are
not protected; see the counterexample at `hC4`. -/
theorem convertSchemaH_root_unchanged (fuel : Nat) (h : Heap) (a : Nat)
    (ha : a < h.length) (hr : refNotInB a h = true) :
    getDict (convertSchemaH fuel h a).1 a = getDict h a := by
  unfold convertSchemaH
  simp only []
  have h1r : refNotInB a (h ++ [getDict h a]) = true := by
    rw [refNotInB_iff]
    intro d hd kv hkv
    rcases List.mem_append.1 hd with h1 | h2
    · exact (refNotInB_iff.1 hr) d h1 kv hkv
    · rw [List.mem_singleton] at h2
      subst h2
      exact refNotInB_getDict_val hr kv hkv
  have hne : PVal.dict h.length ≠ PVal.dict a := by
    intro hq
    simp only [PVal.dict.injEq] at hq
    omega
  obtain ⟨e1, _⟩ := cleanSchemaHeap_pres fuel (h ++ [getDict h a]) (.dict h.length) a h1r hne
  rw [e1]
  exact getDict_append_lt ha _

/-- The `{result | error}` envelope `_execute_tool_call` hands to Gemini:
`error = none` models an absent `error` key. -/
structure Envelope where
  result : Option Val
  error : Option String

/-- A Gemini function call request: `{name, args}`. -/
structure FunctionCall where
  name : String
  args : List (String × Val)

/-- One part of a Gemini `Content`: plain text, a tool-invocation
request (`part.function_call`), or a tool-response part built by
`types.Part.from_function_response`. -/
inductive GemPart where
  | text (s : String)
  | functionCall (fc : FunctionCall)
  | functionResponse (name : String) (response : Envelope)

/-- A Gemini `Content`: a role plus an ordered list of parts. -/
structure Content where
  role : String
  parts : List GemPart

/-- One candidate of a Gemini response (`candidate.content.parts`). -/
structure Candidate where
  content : Content

/-- A Gemini `generate_content` response. -/
structure Response where
  candidates : List Candidate

/-- One content block of a raw MCP tool result, as discriminated by
`_extract_tool_result`: an object with a `.text` attribute
(`TextContent`), a mapping, a plain string, or anything else (kept by
its string conversion). -/
inductive Block where
  | textObj (text : String)
  | dictBlock (kvs : List (String × Val))
  | strBlock (s : String)
  | otherBlock (strConv : String)

/-- The `.content` payload of a raw MCP tool result: a list of blocks,
a plain string, a mapping, or an arbitrary other value (modelled by its
truthiness and string conversion). -/
inductive RawContent where
  | blocks (bs : List Block)
  | strContent (s : String)
  | dictContent (kvs : List (String × Val))
  | otherContent (isTruthy : Bool) (strConv : String)

/-- The external world of one query: `json.loads` (total; `none` is a
parse failure), the MCP server's `call_tool` (`Except.error` is a raised
exception; `none` is a falsy result or one without `.content`), and the
Gemini `generate_content` call, indexed by how many LLM calls were made
before it (`Except.error` is a raised exception). -/
structure Env where
  jsonLoads : String → Option Val
  callTool : String → List (String × Val) → Except String (Option RawContent)
  gen : Nat → List Content → Except String Response

/-- Result of `json.loads(t)` guarded by `try/except`: the parsed value on
success, the raw text otherwise. -/
def parseOrKeep (env : Env) (t : String) : Val :=
  match env.jsonLoads t with
  | some v => v
  | none => .str t

/-- The per-block extraction of `_extract_tool_result`: text attribute
first (JSON-parsed if possible), then a mapping's `text` entry (kept
as-is when not a string, since `json.loads` then raises `TypeError`),
then the mapping itself, then a plain string (JSON-parsed if possible),
else the block's string conversion. -/
def extractPart (env : Env) (b : Block) : Val :=
  match b with
  | .textObj t => parseOrKeep env t
  | .dictBlock kvs =>
    match lookupKey "text" kvs with
    | some (.str t) => parseOrKeep env t
    | some v => v
    | none => .dict kvs
  | .strBlock s => parseOrKeep env s
  | .otherBlock s => .str s

/-- Is the value a Python list? -/
def isList : Val → Bool
  | .list _ => true
  | _ => false

/-- Elements of a list value (`[]` for non-lists; only used under
`isList`). -/
def listElems : Val → List Val
  | .list xs => xs
  | _ => []

/-- Combining step of `_extract_tool_result`: a single extracted part is
returned unwrapped; multiple parts are flattened one level when all are
lists, else returned as the list of parts. -/
def combineParts (ps : List Val) : Val :=
  match ps with
  | [p] => p
  | _ =>
    if ps.all isList then .list (ps.flatMap listElems)
    else .list ps

/-- Model of `_extract_tool_result` from `client.py`.  `none` models both a falsy
`result` / missing `.content` and the `content` being an empty list
(which reaches the final fallback and returns `None`). -/
def extractToolResult (env : Env) (result : Option RawContent) : Option Val :=
  match result with
  | none => none
  | some (.blocks []) => none
  | some (.blocks bs) => some (combineParts (bs.map (extractPart env)))
  | some (.strContent s) => some (parseOrKeep env s)
  | some (.dictContent kvs) => some (.dict kvs)
  | some (.otherContent truthy s) => if truthy then some (.str s) else none

/-- Model of `_execute_tool_call` from `client.py`: call the tool, normalize the
raw result, re-parse a string result once more, and wrap in an envelope;
any raised exception is caught and becomes `{error: str(e), result: None}`. -/
def executeToolCall (env : Env) (toolName : String) (toolArgs : List (String × Val)) :
    Envelope :=
  match env.callTool toolName toolArgs with
  | .error e => { result := none, error := some e }
  | .ok raw =>
    match extractToolResult env raw with
    | some (.str s) =>
      match env.jsonLoads s with
      | some parsed => { result := some parsed, error := none }
      | none => { result := some (.str s), error := none }
    | other => { result := other, error := none }

/-- The user turn appended at the start of `process_query`. -/
def userContent (q : String) : Content := ⟨"user", [.text q]⟩

/-- The `model` turn carrying one invocation request. -/
def modelCallContent (fc : FunctionCall) : Content := ⟨"model", [.functionCall fc]⟩

/-- The `tool` turn carrying one invocation's envelope. -/
def toolContent (toolName : String) (e : Envelope) : Content :=
  ⟨"tool", [.functionResponse toolName e]⟩

/-- The final `model` turn carrying the joined text. -/
def modelTextContent (t : String) : Content := ⟨"model", [.text t]⟩

/-- Mutable state of the `process_query` loop: the conversation history
(`self.conversation_history`) and the accumulated `final_text` buffer. -/
structure LoopSt where
  history : List Content
  finalText : List String

/-- Handling of one response part inside the candidate loop of
`process_query`: a function-call part executes the tool and appends the
`model` and `tool` turns (setting `function_calls_made`); a non-empty
text part is accumulated into `final_text`; anything else is skipped. -/
def processPart (env : Env) (acc : LoopSt × Bool) (p : GemPart) : LoopSt × Bool :=
  match p with
  | .functionCall fc =>
    (⟨acc.1.history
        ++ [modelCallContent fc, toolContent fc.name (executeToolCall env fc.name fc.args)],
      acc.1.finalText⟩, true)
  | .text t => if t = "" then acc else (⟨acc.1.history, acc.1.finalText ++ [t]⟩, acc.2)
  | .functionResponse _ _ => acc

/-- One iteration body of `process_query`: walk every candidate's parts
in order, starting with `function_calls_made = False`. -/
def processResponse (env : Env) (st : LoopSt) (resp : Response) : LoopSt × Bool :=
  resp.candidates.foldl (fun acc c => c.content.parts.foldl (processPart env) acc) (st, false)

/-- Result of the `process_query` loop: either a response-processing run
that ended (`done`) or a `generate_content` call that raised (`raised`),
with the state and LLM-call count at that point. -/
inductive LoopOutcome where
  | raised (e : String) (st : LoopSt) (calls : Nat)
  | done (st : LoopSt) (calls : Nat)

/-- The `while iteration < max_iterations` loop of `process_query`,
counted by remaining iterations; `calls` counts `generate_content`
calls already issued.  When the body made function calls it issues the
follow-up LLM call even on the last iteration (whose response is then
dropped by the exhausted loop condition). -/
def runLoop (env : Env) : Nat → Response → LoopSt → Nat → LoopOutcome
  | 0, _, st, calls => .done st calls
  | rem + 1, resp, st, calls =>
    match processResponse env st resp with
    | (st', made) =>
      if made then
        match env.gen calls st'.history with
        | .error e => .raised e st' (calls + 1)
        | .ok resp' => runLoop env rem resp' st' (calls + 1)
      else .done st' calls

/-- Prefix of `process_query` up to (but not including) the final-text epilogue:
append the user turn, make the initial LLM call, then run the loop with
`max_iterations = 10`. -/
def processQueryAux (env : Env) (h0 : List Content) (q : String) : LoopOutcome :=
  match env.gen 0 (h0 ++ [userContent q]) with
  | .error e => .raised e ⟨h0 ++ [userContent q], []⟩ 1
  | .ok resp => runLoop env 10 resp ⟨h0 ++ [userContent q], []⟩ 1

/-- Observable outcome of `process_query`: the returned string (or the
exception it re-raises), the conversation history afterwards, and how
many LLM calls were issued. -/
structure QueryOutcome where
  result : Except String String
  history : List Content
  llmCalls : Nat

/-- Model of `process_query` from `client.py`, over an initial history `h0`: on
normal completion, append the joined `final_text` as a final model turn
and return it, or return the sentinel when no text was produced; an
exception from `generate_content` propagates with the history as
already mutated. -/
def processQuery (env : Env) (h0 : List Content) (q : String) : QueryOutcome :=
  match processQueryAux env h0 q with
  | .raised e st calls => ⟨.error e, st.history, calls⟩
  | .done st calls =>
    if st.finalText.isEmpty then ⟨.ok "No response generated.", st.history, calls⟩
    else
      ⟨.ok (String.intercalate "\n" st.finalText),
        st.history ++ [modelTextContent (String.intercalate "\n" st.finalText)], calls⟩

/-- All parts of a response, across candidates, in emission order. -/
def respParts (resp : Response) : List GemPart :=
  resp.candidates.flatMap fun c => c.content.parts

/-- The history turns one part contributes: a function-call part yields
its `model` turn followed by its `tool` turn; other parts yield none. -/
def partInvTurns (env : Env) (p : GemPart) : List Content :=
  match p with
  | .functionCall fc =>
    [modelCallContent fc, toolContent fc.name (executeToolCall env fc.name fc.args)]
  | _ => []

/-- All invocation turns a response appends, in emission order. -/
def invTurns (env : Env) (resp : Response) : List Content :=
  (respParts resp).flatMap (partInvTurns env)

/-- The `final_text` entries one part contributes. -/
def partTexts (p : GemPart) : List String :=
  match p with
  | .text t => if t = "" then [] else [t]
  | _ => []

/-- All text accumulated from a response, in emission order. -/
def respTexts (resp : Response) : List String :=
  (respParts resp).flatMap partTexts

/-- Is the part a tool-invocation request? -/
def isCallPart : GemPart → Bool
  | .functionCall _ => true
  | _ => false

/-- Does the response request at least one tool invocation? -/
def hasCall (resp : Response) : Bool :=
  (respParts resp).any isCallPart

theorem processPart_foldl (env : Env) (ps : List GemPart) :
    ∀ (acc : LoopSt × Bool),
      ps.foldl (processPart env) acc
        = (⟨acc.1.history ++ ps.flatMap (partInvTurns env),
            acc.1.finalText ++ ps.flatMap partTexts⟩,
           acc.2 || ps.any isCallPart) := by
  induction ps with
  | nil =>
    intro acc
    obtain ⟨⟨h1, f1⟩, b⟩ := acc
    simp
  | cons p rest ih =>
    intro acc
    obtain ⟨⟨h1, f1⟩, b⟩ := acc
    cases p with
    | functionCall fc =>
      rw [List.foldl_cons, ih]
      simp [processPart, partInvTurns, partTexts, isCallPart]
    | text t =>
      rw [List.foldl_cons, ih]
      by_cases ht : t = ""
      · simp [processPart, partInvTurns, partTexts, isCallPart, ht]
      · simp [processPart, partInvTurns, partTexts, isCallPart, ht]
    | functionResponse nm e =>
      rw [List.foldl_cons, ih]
      simp [processPart, partInvTurns, partTexts, isCallPart]

theorem processCands_foldl (env : Env) (cs : List Candidate) :
    ∀ (acc : LoopSt × Bool),
      cs.foldl (fun acc c => c.content.parts.foldl (processPart env) acc) acc
        = (⟨acc.1.history ++ (cs.flatMap fun c => c.content.parts).flatMap (partInvTurns env),
            acc.1.finalText ++ (cs.flatMap fun c => c.content.parts).flatMap partTexts⟩,
           acc.2 || (cs.flatMap fun c => c.content.parts).any isCallPart) := by
  induction cs with
  | nil =>
    intro acc
    obtain ⟨⟨h1, f1⟩, b⟩ := acc
    simp
  | cons c rest ih =>
    intro acc
    rw [List.foldl_cons, processPart_foldl, ih]
    simp [List.flatMap_append, List.any_append, Bool.or_assoc]

/-- One loop iteration appends, for each tool-invocation part in emission
order, exactly the `model` turn carrying that invocation followed by the
`tool` turn carrying its envelope; text is accumulated in order; the
`function_calls_made` flag is exactly `hasCall`. -/
theorem processResponse_eq (env : Env) (st : LoopSt) (resp : Response) :
    processResponse env st resp
      = (⟨st.history ++ invTurns env resp, st.finalText ++ respTexts resp⟩,
         hasCall resp) := by
  unfold processResponse invTurns respTexts hasCall respParts
  rw [processCands_foldl]
  simp

/-- LLM-call count at a loop outcome. -/
def outcomeCalls : LoopOutcome → Nat
  | .raised _ _ c => c
  | .done _ c => c

/-- Loop state at a loop outcome. -/
def outcomeSt : LoopOutcome → LoopSt
  | .raised _ st _ => st
  | .done st _ => st

theorem runLoop_calls_le (env : Env) :
    ∀ (rem : Nat) (resp : Response) (st : LoopSt) (calls : Nat),
      outcomeCalls (runLoop env rem resp st calls) ≤ calls + rem := by
  intro rem
  induction rem with
  | zero =>
    intro resp st calls
    simp [runLoop, outcomeCalls]
  | succ rem ih =>
    intro resp st calls
    rcases hpr : processResponse env st resp with ⟨st', made⟩
    cases made with
    | false =>
      simp only [runLoop, hpr, if_neg Bool.false_ne_true, outcomeCalls]
      omega
    | true =>
      cases hgen : env.gen calls st'.history with
      | error e =>
        simp [runLoop, hpr, hgen, outcomeCalls]
      | ok resp' =>
        have hih := ih resp' st' (calls + 1)
        simp [runLoop, hpr, hgen]
        omega

theorem processQuery_calls (env : Env) (h0 : List Content) (q : String) :
    (processQuery env h0 q).llmCalls = outcomeCalls (processQueryAux env h0 q) := by
  unfold processQuery
  cases haux : processQueryAux env h0 q with
  | raised e st calls => simp [outcomeCalls]
  | done st calls =>
    cases hft : st.finalText.isEmpty <;> simp [outcomeCalls, hft]

theorem processQueryAux_calls_le (env : Env) (h0 : List Content) (q : String) :
    outcomeCalls (processQueryAux env h0 q) ≤ 11 := by
  unfold processQueryAux
  cases hgen : env.gen 0 (h0 ++ [userContent q]) with
  | error e => simp [outcomeCalls]
  | ok resp =>
    show outcomeCalls (runLoop env 10 resp ⟨h0 ++ [userContent q], []⟩ 1) ≤ 11
    have h := runLoop_calls_le env 10 resp ⟨h0 ++ [userContent q], []⟩ 1
    omega

/-- The history fragment contributed by a list of handled invocations:
for each, the `model` turn carrying the request, then the `tool` turn
carrying its envelope. -/
def invPairShape (pairs : List (FunctionCall × Envelope)) : List Content :=
  pairs.flatMap fun pe => [modelCallContent pe.1, toolContent pe.1.name pe.2]

/-- The handled invocation (request plus envelope) of a function-call
part. -/
def pairFor (env : Env) (p : GemPart) : Option (FunctionCall × Envelope) :=
  match p with
  | .functionCall fc => some (fc, executeToolCall env fc.name fc.args)
  | _ => none

theorem partInvTurns_shape (env : Env) (ps : List GemPart) :
    ps.flatMap (partInvTurns env) = invPairShape (ps.filterMap (pairFor env)) := by
  induction ps with
  | nil => simp [invPairShape]
  | cons p rest ih =>
    cases p with
    | functionCall fc => simp [partInvTurns, pairFor, invPairShape, ih]
    | text t => simp [partInvTurns, pairFor, invPairShape, ih]
    | functionResponse nm e => simp [partInvTurns, pairFor, invPairShape, ih]

theorem invTurns_shape (env : Env) (resp : Response) :
    invTurns env resp = invPairShape ((respParts resp).filterMap (pairFor env)) :=
  partInvTurns_shape env (respParts resp)

theorem runLoop_hist_shape (env : Env) :
    ∀ (rem : Nat) (resp : Response) (st : LoopSt) (calls : Nat) (base : List Content),
      (∃ pairs, st.history = base ++ invPairShape pairs) →
      ∃ pairs, (outcomeSt (runLoop env rem resp st calls)).history
        = base ++ invPairShape pairs := by
  intro rem
  induction rem with
  | zero =>
    intro resp st calls base h
    simpa [runLoop, outcomeSt] using h
  | succ rem ih =>
    intro resp st calls base h
    obtain ⟨pairs, hp⟩ := h
    rcases hpr : processResponse env st resp with ⟨st', made⟩
    simp only [runLoop, hpr]
    rw [processResponse_eq] at hpr
    injection hpr with h1 h2
    have hst' : st'.history = base ++ invPairShape
        (pairs ++ (respParts resp).filterMap (pairFor env)) := by
      rw [← h1]
      show st.history ++ invTurns env resp = _
      rw [hp, invTurns_shape]
      unfold invPairShape
      rw [List.flatMap_append, List.append_assoc]
    cases made with
    | false =>
      simp only [if_neg Bool.false_ne_true, outcomeSt]
      exact ⟨_, hst'⟩
    | true =>
      simp only [if_pos rfl]
      cases hgen : env.gen calls st'.history with
      | error e =>
        simp only [hgen, outcomeSt]
        exact ⟨_, hst'⟩
      | ok resp' =>
        simp only [hgen]
        exact ih resp' st' (calls + 1) base ⟨_, hst'⟩

theorem aux_hist_shape (env : Env) (h0 : List Content) (q : String) :
    ∃ pairs, (outcomeSt (processQueryAux env h0 q)).history
      = (h0 ++ [userContent q]) ++ invPairShape pairs := by
  unfold processQueryAux
  cases hgen : env.gen 0 (h0 ++ [userContent q]) with
  | error e => exact ⟨[], by simp [outcomeSt, invPairShape]⟩
  | ok resp =>
    show ∃ pairs, (outcomeSt (runLoop env 10 resp ⟨h0 ++ [userContent q], []⟩ 1)).history
      = (h0 ++ [userContent q]) ++ invPairShape pairs
    exact runLoop_hist_shape env 10 resp _ 1 _ ⟨[], by simp [invPairShape]⟩

/-- A response whose single candidate requests one tool call. -/
def respFC : Response := ⟨[⟨⟨"model", [.functionCall ⟨"t", []⟩]⟩⟩]⟩

/-- A model that requests a tool call in every response. -/
def envC1 : Env where
  jsonLoads := fun _ => none
  callTool := fun _ _ => .ok none
  gen := fun _ _ => .ok respFC

/-- Claim C1 (amended): the loop processes at most 10 model responses,
then stops and returns the accumulated text; but `process_query` issues
at most ELEVEN LLM calls in total — after processing the 10th response
it still issues one final follow-up call whose response is discarded
unprocessed. -/
theorem claim_C1 (env : Env) (h0 : List Content) (q : String) :
    (processQuery env h0 q).llmCalls ≤ 11 := by
  rw [processQuery_calls]
  exact processQueryAux_calls_le env h0 q

/-- Claim C1 counterexample: when the model requests a tool call in
every response (11 sequential tool calls), `process_query` issues
exactly 11 LLM calls — the claim's "never issues an 11th LLM call" is
false on the code. -/
theorem claim_C1_cex : (processQuery envC1 [] "q").llmCalls = 11 := rfl

/-- Claim C2: `_execute_tool_call` never propagates an exception: when
the remote `call_tool` raises, the result is exactly
`{error: message, result: None}`; on success the envelope carries no
error key. -/
theorem claim_C2 (env : Env) (toolName : String) (toolArgs : List (String × Val)) :
    (∀ e, env.callTool toolName toolArgs = .error e →
      executeToolCall env toolName toolArgs = ⟨none, some e⟩)
    ∧ (∀ r, env.callTool toolName toolArgs = .ok r →
      (executeToolCall env toolName toolArgs).error = none) := by
  constructor
  · intro e he
    unfold executeToolCall
    rw [he]
  · intro r hr
    unfold executeToolCall
    rw [hr]
    cases hx : extractToolResult env r with
    | none => simp [hx]
    | some v =>
      cases v with
      | str s => cases hj : env.jsonLoads s <;> simp [hx, hj]
      | null => simp [hx]
      | bool b => simp [hx]
      | int n => simp [hx]
      | list xs => simp [hx]
      | dict kvs => simp [hx]

/-- A tool host whose `call_tool` always raises. -/
def envBoomTool : Env where
  jsonLoads := fun _ => none
  callTool := fun _ _ => .error "boom"
  gen := fun _ _ => .error "offline"

theorem claim_C2_witness : executeToolCall envBoomTool "t" [] = ⟨none, some "boom"⟩ :=
  (claim_C2 envBoomTool "t" []).1 "boom" rfl

/-- Claim C3 (amended): `clean_schema` removes `title` keys at the top
level and recursively along the `properties` spine (first conjunct), and
apart from `title` keys it changes nothing (second conjunct); `title`
keys in other nested positions — e.g. inside array `items` — survive,
see the counterexample. -/
theorem claim_C3 (s : Val) :
    noTitleOnSpine (cleanSchema s) = true
      ∧ eraseTitlesDeep (cleanSchema s) = eraseTitlesDeep s :=
  cleanSchema_spine_erase s

/-- An array schema whose `items` sub-schema carries a `title`. -/
def schemaWithItems : Val :=
  .dict [("type", .str "array"),
    ("items", .dict [("title", .str "item title"), ("type", .str "string")])]

/-- A tool advertising `schemaWithItems`. -/
def toolWithItems : MCPTool := ⟨"lookup", "d", schemaWithItems⟩

/-- Claim C3 counterexample: the adapter leaves the `title` inside
`items` in place — the produced declaration's parameters still contain a
`title` key, contradicting "every `title` key removed at any nesting
depth". -/
theorem claim_C3_cex :
    (convertMcpToolsToGemini [toolWithItems]).map
      (fun gt => gt.functionDeclarations.map fun fd => hasTitleDeep fd.parameters)
      = [[true]] := by
  simp [convertMcpToolsToGemini, toolWithItems, schemaWithItems, cleanSchema,
    cleanSchemaProps, propsOf, lookupKey, setKey, hasTitleDeep, hasTitlePairs,
    hasTitleElems]

/-- Claim C4 (amended): the shallow `.copy()` protects only the root
dict object: under the no-self-reference side condition, the dict stored
at the original address is unchanged by the conversion.  Nested
sub-dicts are shared with the copy and ARE mutated (see the
counterexample). -/
theorem claim_C4 (fuel : Nat) (h : Heap) (a : Nat) (ha : a < h.length)
    (hr : refNotInB a h = true) :
    getDict (convertSchemaH fuel h a).1 a = getDict h a :=
  convertSchemaH_root_unchanged fuel h a ha hr

/-- Original schema on the heap: address 0 is the tool's stored schema
`{"title": "T", "properties": {"a": {"title": "A", "type": "string"}}}`,
address 1 its `properties` dict, address 2 the nested `a` sub-schema. -/
def hC4 : Heap :=
  [[("title", .prim "T"), ("properties", .dict 1)],
   [("a", .dict 2)],
   [("title", .prim "A"), ("type", .prim "string")]]

theorem claim_C4_witness : getDict (convertSchemaH 10 hC4 0).1 0 = getDict hC4 0 :=
  claim_C4 10 hC4 0 (by decide) (by decide)

/-- Claim C4 counterexample: after the conversion, the nested sub-dict
of the ORIGINAL schema (address 2, reachable from the retained original)
has changed — its `title` key was removed in place through the shared
reference, so the adapter does mutate the caller's retained copy. -/
theorem claim_C4_cex : getDict (convertSchemaH 10 hC4 0).1 2 ≠ getDict hC4 2 := by
  have hv : getDict (convertSchemaH 10 hC4 0).1 2 = [("type", .prim "string")] := by
    simp [convertSchemaH, cleanSchemaHeap, cleanPropsHeap, getDict, setDict, setKey,
      lookupKey, hC4]
  rw [hv]
  decide

/-- Claim C5: within one model response, each tool-invocation part — in
the order the model emitted them — appends exactly the `model` turn
carrying that single invocation followed by the `tool` turn carrying the
resulting envelope, all before the loop body ends (hence before any next
LLM call); the `function_calls_made` flag is exactly "some part is an
invocation request". -/
theorem claim_C5 (env : Env) (st : LoopSt) (resp : Response) :
    processResponse env st resp
      = (⟨st.history ++ invTurns env resp, st.finalText ++ respTexts resp⟩,
         hasCall resp) :=
  processResponse_eq env st resp

/-- Claim C6: a single text block whose text parses as JSON is
normalized to the parsed structure, and when the text does not parse the
raw text is kept (the parse failure is swallowed, never raised). -/
theorem claim_C6 (env : Env) (t : String) :
    (∀ v, env.jsonLoads t = some v →
      extractToolResult env (some (.blocks [.textObj t])) = some v)
    ∧ (env.jsonLoads t = none →
      extractToolResult env (some (.blocks [.textObj t])) = some (.str t)) := by
  constructor
  · intro v hv
    simp [extractToolResult, combineParts, extractPart, parseOrKeep, hv]
  · intro hv
    simp [extractToolResult, combineParts, extractPart, parseOrKeep, hv]

/-- Concrete `json.loads` that parses exactly the two texts used by the
witnesses. -/
def envJ : Env where
  jsonLoads := fun s =>
    if s = "[1]" then some (.list [.int 1])
    else if s = "[2]" then some (.list [.int 2])
    else none
  callTool := fun _ _ => .ok none
  gen := fun _ _ => .error "offline"

theorem claim_C6_witness :
    extractToolResult envJ (some (.blocks [.textObj "[1]"])) = some (.list [.int 1]) :=
  (claim_C6 envJ "[1]").1 (.list [.int 1]) rfl

/-- Claim C7: with at least two blocks whose extracted parts are all
lists, normalization returns the one-level-flattened concatenation; a
single extracted part is returned unwrapped; and with at least two parts
not all lists, the sequence of parts is returned as-is. -/
theorem claim_C7 (env : Env) (bs : List Block) :
    (2 ≤ bs.length → ((bs.map (extractPart env)).all isList = true) →
      extractToolResult env (some (.blocks bs))
        = some (.list ((bs.map (extractPart env)).flatMap listElems)))
    ∧ (∀ b, bs = [b] →
      extractToolResult env (some (.blocks bs)) = some (extractPart env b))
    ∧ (2 ≤ bs.length → ((bs.map (extractPart env)).all isList = false) →
      extractToolResult env (some (.blocks bs))
        = some (.list (bs.map (extractPart env)))) := by
  refine ⟨?_, ?_, ?_⟩
  · intro hlen hall
    cases bs with
    | nil => simp at hlen
    | cons b1 bs1 =>
      cases bs1 with
      | nil => simp at hlen
      | cons b2 rest =>
        simp only [extractToolResult, List.map_cons, combineParts]
        simp only [List.map_cons] at hall
        rw [hall]
        simp
  · intro b hb
    subst hb
    simp [extractToolResult, combineParts]
  · intro hlen hall
    cases bs with
    | nil => simp at hlen
    | cons b1 bs1 =>
      cases bs1 with
      | nil => simp at hlen
      | cons b2 rest =>
        simp only [extractToolResult, List.map_cons, combineParts]
        simp only [List.map_cons] at hall
        rw [hall]
        simp

theorem claim_C7_witness :
    extractToolResult envJ (some (.blocks [.textObj "[1]", .textObj "[2]"]))
      = some (.list [.int 1, .int 2]) := by
  have h := (claim_C7 envJ [.textObj "[1]", .textObj "[2]"]).1 (by decide) rfl
  exact h

/-- Claim C8: on normal completion, if any text was accumulated the
returned string is the accumulated entries joined with newline
separators in emission order and that string is also appended as one
final model turn; when no text was produced the result is the sentinel
string "No response generated." (which is not empty). -/
theorem processQuery_done {env : Env} {h0 : List Content} {q : String} {st : LoopSt}
    {calls : Nat} (haux : processQueryAux env h0 q = .done st calls) :
    processQuery env h0 q
      = if st.finalText.isEmpty then ⟨.ok "No response generated.", st.history, calls⟩
        else ⟨.ok (String.intercalate "\n" st.finalText),
          st.history ++ [modelTextContent (String.intercalate "\n" st.finalText)], calls⟩ := by
  unfold processQuery
  rw [haux]

theorem claim_C8 (env : Env) (h0 : List Content) (q : String) (st : LoopSt) (calls : Nat)
    (haux : processQueryAux env h0 q = .done st calls) :
    (st.finalText ≠ [] →
      processQuery env h0 q
        = ⟨.ok (String.intercalate "\n" st.finalText),
           st.history ++ [modelTextContent (String.intercalate "\n" st.finalText)], calls⟩)
    ∧ (st.finalText = [] →
      processQuery env h0 q = ⟨.ok "No response generated.", st.history, calls⟩
        ∧ "No response generated." ≠ "") := by
  constructor
  · intro hne
    rw [processQuery_done haux, if_neg (by simp [List.isEmpty_iff, hne])]
  · intro heq
    rw [processQuery_done haux, if_pos (by simp [heq])]
    exact ⟨rfl, by decide⟩

/-- A model that answers with plain text immediately. -/
def envText : Env where
  jsonLoads := fun _ => none
  callTool := fun _ _ => .ok none
  gen := fun _ _ => .ok ⟨[⟨⟨"model", [.text "hi"]⟩⟩]⟩

theorem claim_C8_witness :
    processQuery envText [] "q"
      = ⟨.ok "hi", [userContent "q", modelTextContent "hi"], 1⟩ := by
  have h := (claim_C8 envText [] "q" ⟨[userContent "q"], ["hi"]⟩ 1 rfl).1 (by simp)
  exact h

/-- Claim C9: on the no-text path no final model turn is appended: the
returned history is exactly the loop's history, which consists of the
initial history, the user turn, and the handled invocations'
model/tool turn pairs — nothing else. -/
theorem claim_C9 (env : Env) (h0 : List Content) (q : String) (st : LoopSt) (calls : Nat)
    (haux : processQueryAux env h0 q = .done st calls) (hft : st.finalText = []) :
    (processQuery env h0 q).history = st.history
      ∧ ∃ pairs, st.history = h0 ++ [userContent q] ++ invPairShape pairs := by
  constructor
  · rw [processQuery_done haux, if_pos (by simp [hft])]
  · have h := aux_hist_shape env h0 q
    rw [haux] at h
    simpa [outcomeSt] using h

/-- A model that first requests one tool call, then returns an empty
response. -/
def envC9 : Env where
  jsonLoads := fun _ => none
  callTool := fun _ _ => .ok none
  gen := fun i _ => if i = 0 then .ok respFC else .ok ⟨[]⟩

theorem claim_C9_witness :
    (processQuery envC9 [] "q").history
        = [userContent "q", modelCallContent ⟨"t", []⟩, toolContent "t" ⟨none, none⟩]
      ∧ ∃ pairs, [userContent "q", modelCallContent ⟨"t", []⟩, toolContent "t" ⟨none, none⟩]
        = [] ++ [userContent "q"] ++ invPairShape pairs :=
  claim_C9 envC9 [] "q"
    ⟨[userContent "q", modelCallContent ⟨"t", []⟩, toolContent "t" ⟨none, none⟩], []⟩ 2
    rfl rfl

/-- Claim C10: an exception from the LLM call propagates out of
`process_query`, and the history keeps everything appended up to that
point — the user turn plus the earlier invocations' model/tool turn
pairs; nothing is rolled back. -/
theorem claim_C10 (env : Env) (h0 : List Content) (q : String) (e : String) (st : LoopSt)
    (calls : Nat) (haux : processQueryAux env h0 q = .raised e st calls) :
    (processQuery env h0 q).result = .error e
      ∧ (processQuery env h0 q).history = st.history
      ∧ ∃ pairs, st.history = h0 ++ [userContent q] ++ invPairShape pairs := by
  refine ⟨?_, ?_, ?_⟩
  · unfold processQuery
    rw [haux]
  · unfold processQuery
    rw [haux]
  · have h := aux_hist_shape env h0 q
    rw [haux] at h
    simpa [outcomeSt] using h

/-- An LLM provider whose `generate_content` always raises. -/
def envBoomGen : Env where
  jsonLoads := fun _ => none
  callTool := fun _ _ => .ok none
  gen := fun _ _ => .error "boom"

theorem claim_C10_witness :
    (processQuery envBoomGen [] "q").result = .error "boom"
      ∧ (processQuery envBoomGen [] "q").history = [userContent "q"]
      ∧ ∃ pairs, [userContent "q"] = [] ++ [userContent "q"] ++ invPairShape pairs := by
  have h := claim_C10 envBoomGen [] "q" "boom" ⟨[userContent "q"], []⟩ 1 rfl
  exact h
